import Mathlib

/-!
Verification of the openrouter-skills core: skill registry, frontmatter
parser, discovery, and script executor, shallowly embedded from the
TypeScript source (`src/executor.ts`, the parser module, and the provider
module). Filesystem reads, `stat` calls, and child-process spawns are
modelled as oracles; everything else is a direct transliteration.
-/

namespace ORSkills
/-- Result record returned by the executor and the registry
(`SkillExecutionResult` in `types.ts`); `error` is the optional error kind. -/
structure SkillExecutionResult where
  success : Bool
  stdout : String
  stderr : String
  exitCode : Int
  error : Option String
deriving DecidableEq

/-- Helper mirroring the provider's `fail(error, stderr = '')`. -/
def failRes (error : String) (stderr : String := "") : SkillExecutionResult :=
  { success := false, stdout := "", stderr := stderr, exitCode := -1, error := some error }

/-- Fuel-driven scan mirroring JavaScript `String.prototype.indexOf(pat, i)`
on a character list: first index `j ≥ i` where `pat` occurs, else `none`. -/
def findFromF : Nat → List Char → List Char → Nat → Option Nat
  | 0, _, _, _ => none
  | fuel + 1, s, pat, i =>
    if s.length < i + pat.length then none
    else if pat.isPrefixOf (s.drop i) then some i
    else findFromF fuel s pat (i + 1)

/-- JavaScript `s.indexOf(pat, i)` (as an `Option`): fuel `s.length + 1 - i`
always suffices because the scan stops once `i + pat.length` passes the end. -/
def findFrom (s pat : List Char) (i : Nat) : Option Nat :=
  findFromF (s.length + 1 - i) s pat i

/-- JavaScript `s.includes(pat)` for a nonempty pattern. -/
def containsSub (s pat : String) : Bool :=
  (findFrom s.data pat.data 0).isSome

/-- JavaScript `String.prototype.trim` (ASCII whitespace model). -/
def jsTrim (s : String) : String :=
  ⟨((s.data.dropWhile Char.isWhitespace).reverse.dropWhile Char.isWhitespace).reverse⟩

/-- JavaScript `s.startsWith(pat)`. -/
def strStarts (s pat : String) : Bool := pat.data.isPrefixOf s.data

/-- JavaScript `s.endsWith(pat)`. -/
def strEnds (s pat : String) : Bool := pat.data.isSuffixOf s.data

/-- JavaScript `s.toLowerCase()` (ASCII model). -/
def jsToLower (s : String) : String := ⟨s.data.map Char.toLower⟩

/-- Transliteration of `isSimpleFilename` from `executor.ts`. The platform's
`path.isAbsolute` is passed in as the oracle `isAbs`. -/
def isSimpleFilename (isAbs : String → Bool) (script : String) : Bool :=
  if (jsTrim script).length == 0 then false
  else if containsSub script ".." || containsSub script "/" || containsSub script "\\" then false
  else if isAbs script then false
  else true

/-- Oracle for Node's `path` module: only the operations `executor.ts` uses. -/
structure PathMod where
  isAbsolute : String → Bool
  resolve1 : String → String
  resolveIn : String → String → String
  resolveIn2 : String → String → String → String
  sep : String
  extname : String → String

/-- Oracle for `fs.access(p, R_OK)`: whether a path is a readable file. -/
structure FsOracle where
  readable : String → Bool

/-- Outcome of the executor up to the spawn boundary: either a result is
returned without spawning, or a child process is spawned with the given
command and argument vector. -/
inductive ExecStep where
  | reject (r : SkillExecutionResult)
  | spawn (command : String) (execArgs : List String)
deriving DecidableEq

/-- Transliteration of `resolveCommand` from `executor.ts`. -/
def resolveCommand (p : PathMod) (scriptPath : String) (args : List String) :
    String × List String :=
  let ext := jsToLower (p.extname scriptPath)
  if ext == ".mjs" || ext == ".js" then ("node", scriptPath :: args)
  else if ext == ".sh" then ("bash", scriptPath :: args)
  else (scriptPath, args)

/-- Transliteration of `executeScript` from `executor.ts` up to the spawn
boundary: name validation, two-candidate resolution, containment re-check,
command selection. A `.reject` value is a return before any spawn. -/
def executeScript (p : PathMod) (fs : FsOracle) (skillDir script : String)
    (args : List String) : ExecStep :=
  if !isSimpleFilename p.isAbsolute script then
    .reject (failRes "ScriptNotAllowed")
  else
    let resolvedSkillDir := p.resolve1 skillDir
    let candidateRoot := p.resolveIn resolvedSkillDir script
    let candidateScripts := p.resolveIn2 resolvedSkillDir "scripts" script
    let scriptPath? :=
      if fs.readable candidateRoot then some candidateRoot
      else if fs.readable candidateScripts then some candidateScripts
      else none
    match scriptPath? with
    | none => .reject (failRes "ScriptNotFound")
    | some scriptPath =>
      let normalizedSkillDir := resolvedSkillDir ++ p.sep
      if scriptPath ≠ resolvedSkillDir && !strStarts scriptPath normalizedSkillDir then
        .reject (failRes "ScriptNotAllowed")
      else
        let cmd := resolveCommand p scriptPath args
        .spawn cmd.1 cmd.2

/-! UTF-8 model: `Buffer.from(s, 'utf-8')` is `utf8Bytes`, and
`buf.toString('utf-8')` on arbitrary byte prefixes is `utf8Decode`, the
WHATWG-style lossy decoder (invalid or truncated sequences become U+FFFD),
which is the behavior of Node's Buffer decoding. -/

/-- UTF-8 encoding of a Unicode scalar value given as a `Nat`. -/
def utf8EncodeNat (n : Nat) : List Nat :=
  if n < 0x80 then [n]
  else if n < 0x800 then [0xC0 + n / 64, 0x80 + n % 64]
  else if n < 0x10000 then [0xE0 + n / 4096, 0x80 + n / 64 % 64, 0x80 + n % 64]
  else [0xF0 + n / 262144, 0x80 + n / 4096 % 64, 0x80 + n / 64 % 64, 0x80 + n % 64]

/-- UTF-8 encoding of a `Char` (always a valid scalar value). -/
def utf8EncodeChar (c : Char) : List Nat := utf8EncodeNat c.toNat

/-- UTF-8 bytes of a string, as `Buffer.from(s, 'utf-8')` produces them. -/
def utf8Bytes (s : String) : List Nat := (s.data.map utf8EncodeChar).flatten

/-- UTF-8 byte length of a string. -/
def utf8Len (s : String) : Nat := (utf8Bytes s).length

/-- UTF-8 byte length of a character list. -/
def chLen (l : List Char) : Nat := ((l.map utf8EncodeChar).flatten).length

/-- The replacement character U+FFFD emitted for invalid byte sequences. -/
def replChar : Char := Char.ofNat 0xFFFD

/-- Whether a byte is a UTF-8 continuation byte. -/
def isCont (b : Nat) : Bool := decide (0x80 ≤ b ∧ b < 0xC0)

/-- Allowed first continuation byte after a three-byte lead (WHATWG ranges:
`E0` tightens the lower bound, `ED` excludes surrogates). -/
def cont3ok (b c : Nat) : Bool :=
  if b = 0xE0 then decide (0xA0 ≤ c ∧ c < 0xC0)
  else if b = 0xED then decide (0x80 ≤ c ∧ c < 0xA0)
  else isCont c

/-- Allowed first continuation byte after a four-byte lead (WHATWG ranges:
`F0` tightens the lower bound, `F4` caps at U+10FFFF). -/
def cont4ok (b c : Nat) : Bool :=
  if b = 0xF0 then decide (0x90 ≤ c ∧ c < 0xC0)
  else if b = 0xF4 then decide (0x80 ≤ c ∧ c < 0x90)
  else isCont c

/-- Fuel-driven WHATWG UTF-8 decoder: an invalid byte emits U+FFFD and the
scan restarts at the next byte; a sequence truncated by end of input emits a
single U+FFFD. Fuel equal to the list length always suffices. -/
def utf8DecodeF : Nat → List Nat → List Char
  | _, [] => []
  | 0, _ :: _ => []
  | fuel + 1, b :: rest =>
    if b < 0x80 then Char.ofNat b :: utf8DecodeF fuel rest
    else if b < 0xC2 then replChar :: utf8DecodeF fuel rest
    else if b < 0xE0 then
      match rest with
      | [] => [replChar]
      | c1 :: rest1 =>
        if isCont c1 then
          Char.ofNat ((b - 0xC0) * 64 + (c1 - 0x80)) :: utf8DecodeF fuel rest1
        else replChar :: utf8DecodeF fuel (c1 :: rest1)
    else if b < 0xF0 then
      match rest with
      | [] => [replChar]
      | c1 :: rest1 =>
        if cont3ok b c1 then
          match rest1 with
          | [] => [replChar]
          | c2 :: rest2 =>
            if isCont c2 then
              Char.ofNat ((b - 0xE0) * 4096 + (c1 - 0x80) * 64 + (c2 - 0x80)) ::
                utf8DecodeF fuel rest2
            else replChar :: utf8DecodeF fuel (c2 :: rest2)
        else replChar :: utf8DecodeF fuel (c1 :: rest1)
    else if b < 0xF5 then
      match rest with
      | [] => [replChar]
      | c1 :: rest1 =>
        if cont4ok b c1 then
          match rest1 with
          | [] => [replChar]
          | c2 :: rest2 =>
            if isCont c2 then
              match rest2 with
              | [] => [replChar]
              | c3 :: rest3 =>
                if isCont c3 then
                  Char.ofNat ((b - 0xF0) * 262144 + (c1 - 0x80) * 4096 +
                      (c2 - 0x80) * 64 + (c3 - 0x80)) :: utf8DecodeF fuel rest3
                else replChar :: utf8DecodeF fuel (c3 :: rest3)
            else replChar :: utf8DecodeF fuel (c2 :: rest2)
        else replChar :: utf8DecodeF fuel (c1 :: rest1)
    else replChar :: utf8DecodeF fuel rest

/-- Lossy UTF-8 decoding of a byte list, as `buf.toString('utf-8')`. -/
def utf8Decode (l : List Nat) : List Char := utf8DecodeF l.length l

/-- Truncation marker appended by `capOutput` on truncation. -/
def truncMarker : String := "\n[output truncated]"

/-- Transliteration of `capOutput` from `executor.ts`: if the UTF-8 byte
length is within `maxBytes` the output is returned unchanged; otherwise the
byte buffer is cut at `maxBytes`, decoded back to a string (Node's lossy
UTF-8 decode), and the marker is appended. -/
def capOutput (output : String) (maxBytes : Nat) : String :=
  let buf := utf8Bytes output
  if buf.length ≤ maxBytes then output
  else String.mk (utf8Decode (buf.take maxBytes)) ++ truncMarker

/-! Executor callback: the `execFile` completion handler in `executeScript`. -/

/-- Fields of the Node error object that the callback inspects. -/
structure ExecFileError where
  killed : Bool
  code : Option String
  status : Option Int
deriving DecidableEq

/-- Transliteration of the `execFile` callback body in `executeScript`: maps
the spawn outcome (optional error object, the child's exit code, and the raw
captured stdout/stderr) to the final result, capping both streams. -/
def execCallback (childExitCode : Option Int) (error : Option ExecFileError)
    (stdout stderr : String) (maxOutput : Nat) : SkillExecutionResult :=
  let cappedStdout := capOutput stdout maxOutput
  let cappedStderr := capOutput stderr maxOutput
  match error with
  | some e =>
    if e.killed || e.code == some "ETIMEDOUT" then
      { success := false, stdout := "", stderr := "", exitCode := -1,
        error := some "ExecutionTimeout" }
    else
      { success := false, stdout := cappedStdout, stderr := cappedStderr,
        exitCode := childExitCode.getD (e.status.getD (-1)),
        error := some "ExecutionFailed" }
  | none =>
    { success := true, stdout := cappedStdout, stderr := cappedStderr,
      exitCode := 0, error := none }

/-! Association-list model of JavaScript `Map` and plain-object key/value
stores, with the update-in-place (or append) semantics of `Map.set`. -/

/-- Model of `Map.set`: replace the binding if the key is present, else append. -/
def mapSet {α : Type} : List (String × α) → String → α → List (String × α)
  | [], k, v => [(k, v)]
  | (k', v') :: rest, k, v =>
    if k' = k then (k, v) :: rest else (k', v') :: mapSet rest k v

/-- Model of `Map.delete`: remove the (unique) binding for a key. -/
def mapDelete {α : Type} : List (String × α) → String → List (String × α)
  | [], _ => []
  | (k', v') :: rest, k => if k' = k then rest else (k', v') :: mapDelete rest k

/-! Frontmatter parser module: transliterations of `parseFrontmatter`,
`firstParagraph` and the raw-text core of `parseSkillFile` (file reading is
factored out: the core receives the file's text). -/

/-- JavaScript `raw.split(sep)` for a single-character separator; note that
the empty string splits to `[""]`, as in JavaScript. -/
def listSplit (sep : Char) : List Char → List (List Char)
  | [] => [[]]
  | c :: rest =>
    let r := listSplit sep rest
    if c = sep then [] :: r
    else
      match r with
      | [] => [[c]]
      | x :: xs => (c :: x) :: xs

/-- Trim on a character list (`String.prototype.trim`). -/
def listTrim (l : List Char) : List Char :=
  ((l.dropWhile Char.isWhitespace).reverse.dropWhile Char.isWhitespace).reverse

/-- Strip a matching pair of surrounding single or double quotes
(`value.slice(1, -1)` under the source's guard). -/
def stripQuotes (v : List Char) : List Char :=
  if (v.head? = some (Char.ofNat 34) ∧ v.getLast? = some (Char.ofNat 34)) ∨
      (v.head? = some (Char.ofNat 39) ∧ v.getLast? = some (Char.ofNat 39)) then
    (v.drop 1).dropLast
  else v

/-- Transliteration of `parseFrontmatter`: flat `key: value` lines split on
the first colon, blank and `#`-prefixed lines skipped, quoted values
unquoted; later duplicates overwrite earlier ones (object assignment). -/
def parseFrontmatter (raw : String) : List (String × String) :=
  (listSplit '\n' raw.data).foldl
    (fun result line =>
      let trimmed := listTrim line
      if trimmed.isEmpty then result
      else if trimmed.head? = some '#' then result
      else
        match trimmed.findIdx? (· = ':') with
        | none => result
        | some colonIndex =>
          let key := listTrim (trimmed.take colonIndex)
          let value := stripQuotes (listTrim (trimmed.drop (colonIndex + 1)))
          if key.isEmpty then result
          else mapSet result (String.mk key) (String.mk value))
    []

/-- Collector for the paragraph lines after the first non-blank, non-heading
line has started the paragraph (`firstParagraph`'s started phase). -/
def fpTake : List (List Char) → List (List Char)
  | [] => []
  | line :: rest =>
    let t := listTrim line
    if t.isEmpty || t.head? = some '#' then []
    else t :: fpTake rest

/-- Skipping phase of `firstParagraph`: drop blank lines and headings, then
collect the first paragraph block. -/
def fpSkip : List (List Char) → List (List Char)
  | [] => []
  | line :: rest =>
    let t := listTrim line
    if t.isEmpty || t.head? = some '#' then fpSkip rest
    else t :: fpTake rest

/-- Join with a separator (`paragraphLines.join(' ')`). -/
def joinWith (sep : List Char) : List (List Char) → List Char
  | [] => []
  | [x] => x
  | x :: xs => x ++ sep ++ joinWith sep xs

/-- Transliteration of `firstParagraph`: the first contiguous block of
non-blank, non-heading trimmed lines, space-joined. -/
def firstParagraph (markdown : String) : String :=
  ⟨joinWith [' '] (fpSkip (listSplit '\n' markdown.data))⟩

/-- Strip one leading line break (`content.replace(/^\r?\n/, '')`). -/
def stripLeadingNl : List Char → List Char
  | '\r' :: '\n' :: rest => rest
  | '\n' :: rest => rest
  | l => l

/-- Result of parsing a `SKILL.md` text. -/
structure ParsedSkill where
  name : String
  description : String
  content : String
deriving DecidableEq

/-- Transliteration of the raw-text core of `parseSkillFile`: detect a
leading `---` delimiter, search for the substring `"\n---"` from offset 3
(JavaScript `raw.indexOf('\n---', 3)`), cut frontmatter and content there,
and fall back to the first paragraph when the description is empty. -/
def parseSkillFileCore (raw : String) : ParsedSkill :=
  let rc := raw.data
  if "---".data.isPrefixOf rc then
    match findFrom rc "\n---".data 3 with
    | some endIndex =>
      let frontmatterRaw := String.mk ((rc.drop 3).take (endIndex - 3))
      let meta := parseFrontmatter frontmatterRaw
      let name := (meta.lookup "name").getD ""
      let description := (meta.lookup "description").getD ""
      let content := String.mk (stripLeadingNl (rc.drop (endIndex + 4)))
      ⟨name, if description = "" then firstParagraph content else description, content⟩
    | none => ⟨"", firstParagraph raw, raw⟩
  else ⟨"", firstParagraph raw, raw⟩

/-! Skill registry (provider module): `createSkillsProvider`'s mutable maps
`skillsMap` and `mtimes`, with filesystem access as an oracle. -/

/-- Transliteration of `SkillDefinition` from the provider module. -/
structure SkillDefinition where
  name : String
  description : String
  content : String
  dirPath : String
  scripts : List String
deriving DecidableEq

/-- Registry state: the `skillsMap` and `mtimes` maps. -/
structure ProviderState where
  skillsMap : List (String × SkillDefinition)
  mtimes : List (String × Nat)
deriving DecidableEq

/-- Oracle for the registry's filesystem interactions at one instant.
`statMtime` is `stat(join(dirPath, 'SKILL.md')).mtimeMs` keyed by the
skill's directory, `none` modelling a thrown error. `loadSkill` -- Modelled
from the spec: the provider imports the single-skill re-parse
`loadSkill(dirPath, skillName)` from the parser module, but that function's
definition is not in the repository snapshot; per spec section 4.4 it
re-runs discovery for that one skill's directory and returns the re-parsed
skill; `none` models a thrown error. `discoverAll` is the concatenation, in
root order, of `discoverSkills` over the configured roots. -/
structure Disk where
  statMtime : String → Option Nat
  loadSkill : String → String → Option SkillDefinition
  discoverAll : List SkillDefinition

/-- Transliteration of `addSkills`: insert skills in order, skipping names
already present (first wins), recording the manifest mtime when the stat
succeeds. -/
def addSkills (disk : Disk) : ProviderState → List SkillDefinition → ProviderState
  | st, [] => st
  | st, skill :: rest =>
    if (st.skillsMap.lookup skill.name).isSome then addSkills disk st rest
    else
      addSkills disk
        { skillsMap := mapSet st.skillsMap skill.name skill
          mtimes :=
            match disk.statMtime skill.dirPath with
            | some m => mapSet st.mtimes skill.name m
            | none => st.mtimes }
        rest

/-- Transliteration of `refreshIfStale`: re-parse a single skill when its
manifest modification time differs from the cached one; keep the cached
entry as-is when the skill is unknown, the stat fails, the mtime matches, or
the re-parse fails. -/
def refreshIfStale (disk : Disk) (st : ProviderState) (skillName : String) :
    ProviderState :=
  match st.skillsMap.lookup skillName with
  | none => st
  | some skill =>
    match disk.statMtime skill.dirPath with
    | none => st
    | some m =>
      if st.mtimes.lookup skillName = some m then st
      else
        match disk.loadSkill skill.dirPath skillName with
        | none => st
        | some updated =>
          { skillsMap := mapSet st.skillsMap skillName updated
            mtimes := mapSet st.mtimes skillName m }

/-- Transliteration of `rediscover`: re-run discovery over every root and
merge the results without overwriting cached entries. -/
def rediscover (disk : Disk) (st : ProviderState) : ProviderState :=
  addSkills disk st disk.discoverAll

/-- JavaScript `list.join(', ')`. -/
def strJoinComma (l : List String) : String :=
  ⟨joinWith [',', ' '] (l.map String.data)⟩

/-- The `SkillNotFound` message enumerating the known names. -/
def notFoundMsg (st : ProviderState) (skillName : String) : String :=
  "\"" ++ skillName ++ "\" not found. Available: " ++
    strJoinComma (st.skillsMap.map (fun q => q.1))

/-- Transliteration of the `load_skill` branch of `handleToolCall`: refresh
a known skill, or rediscover when the name is unknown, then return the
skill's content (or `SkillNotFound`). -/
def loadSkillStep (disk : Disk) (st : ProviderState) (skillName : String) :
    ProviderState × SkillExecutionResult :=
  match st.skillsMap.lookup skillName with
  | some _ =>
    let st1 := refreshIfStale disk st skillName
    match st1.skillsMap.lookup skillName with
    | some sk =>
      (st1, { success := true, stdout := sk.content, stderr := "", exitCode := 0,
              error := none })
    | none => (st1, failRes "SkillNotFound" (notFoundMsg st1 skillName))
  | none =>
    let st1 := rediscover disk st
    match st1.skillsMap.lookup skillName with
    | some sk =>
      (st1, { success := true, stdout := sk.content, stderr := "", exitCode := 0,
              error := none })
    | none => (st1, failRes "SkillNotFound" (notFoundMsg st1 skillName))

/-- Shape of the `args` value of a `use_skill` call: an array of strings,
`undefined`, `null`, or any other value (carrying its `typeof` string). -/
inductive ArgsVal where
  | arr (l : List String)
  | undef
  | null
  | other (typeofStr : String)
deriving DecidableEq

/-- Availability list for the `ScriptNotAllowed` message
(`scripts.join(', ') || 'none'`). -/
def availMsg (scripts : List String) : String :=
  if strJoinComma scripts = "" then "none" else strJoinComma scripts

/-- Transliteration of the `use_skill` branch of `handleToolCall`, composed
with the executor up to the spawn boundary: validate the `args` shape,
refresh the skill, check the allowlist with the forced re-parse fallback,
then delegate to `executeScript`. -/
def useSkillStep (p : PathMod) (fsx : FsOracle) (disk : Disk) (st : ProviderState)
    (skillName script : String) (rawArgs : ArgsVal) : ProviderState × ExecStep :=
  match rawArgs with
  | .other t =>
    (st, .reject (failRes "InvalidArgs" ("args must be an array of strings, got " ++ t)))
  | _ =>
    let scriptArgs := match rawArgs with | .arr l => l | _ => []
    let st1 := refreshIfStale disk st skillName
    match st1.skillsMap.lookup skillName with
    | none => (st1, .reject (failRes "SkillNotFound"))
    | some skill =>
      let pair :=
        if skill.scripts.contains script then (st1, skill)
        else
          let st2 : ProviderState := ⟨st1.skillsMap, mapDelete st1.mtimes skillName⟩
          let st3 := refreshIfStale disk st2 skillName
          (st3, (st3.skillsMap.lookup skillName).getD skill)
      if pair.2.scripts.contains script then
        (pair.1, executeScript p fsx pair.2.dirPath script scriptArgs)
      else
        (pair.1, .reject (failRes "ScriptNotAllowed"
          ("\"" ++ script ++ "\" not registered for \"" ++ skillName ++
            "\". Available: " ++ availMsg pair.2.scripts)))

/-- Construction phase of `createSkillsProvider`: the per-root discovery
results, concatenated in root order, merged into the empty maps. -/
def buildRegistry (disk : Disk) (perRoot : List (List SkillDefinition)) :
    ProviderState :=
  addSkills disk ⟨[], []⟩ perRoot.flatten

/-- A tool call against the registry together with the oracles in effect at
the time of the call (the disk may change between calls). -/
structure OpCtx where
  p : PathMod
  fsx : FsOracle
  disk : Disk

/-- A registry operation: one of the two tool calls. -/
inductive Op where
  | load (skill : String)
  | use (skill script : String) (args : ArgsVal)

/-- One `handleToolCall` dispatch, keeping only the registry state. -/
def runOp (c : OpCtx) (st : ProviderState) : Op → ProviderState
  | .load s => (loadSkillStep c.disk st s).1
  | .use s sc a => (useSkillStep c.p c.fsx c.disk st s sc a).1

/-- A sequence of tool calls, each under its own oracles. -/
def runOps (st : ProviderState) : List (OpCtx × Op) → ProviderState
  | [] => st
  | co :: rest => runOps (runOp co.1 st co.2) rest

/-- Classifier for an executor outcome: a rejection with the given error
kind (and hence no spawned process). -/
def rejectsWith (o : ExecStep) (kind : String) : Bool :=
  match o with
  | .reject r => !r.success && (r.error == some kind)
  | .spawn _ _ => false

/-- Trivial path module used to instantiate oracle parameters in witnesses. -/
def naivePath : PathMod :=
  ⟨fun _ => false, id, fun a b => a ++ "/" ++ b,
    fun a b c => a ++ "/" ++ b ++ "/" ++ c, "/", fun _ => ""⟩

/-- Filesystem oracle with no readable files. -/
def noFs : FsOracle := ⟨fun _ => false⟩

/-- Disk oracle on which every stat, re-parse and discovery fails or is
empty (a skill tree deleted from disk). -/
def emptyDisk : Disk := ⟨fun _ => none, fun _ _ => none, []⟩

/-- Oracle bundle for witness operations. -/
def sampleCtx : OpCtx := ⟨naivePath, noFs, emptyDisk⟩

/-- Sample cached skill for witnesses. -/
def skA : SkillDefinition := ⟨"a", "doc", "old content", "/skills/a", ["x.mjs"]⟩

/-- Re-parsed version of `skA` with new content. -/
def skA2 : SkillDefinition := ⟨"a", "doc", "new content", "/skills/a", ["x.mjs"]⟩

/-- Registry state caching `skA` with modification time 1. -/
def stA : ProviderState := ⟨[("a", skA)], [("a", 1)]⟩

/-- Disk where the manifest mtime moved to 2 and re-parsing yields `skA2`. -/
def diskChanged : Disk := ⟨fun _ => some 2, fun _ _ => some skA2, []⟩

/-- Disk where the manifest mtime still equals the cached value. -/
def diskSame : Disk := ⟨fun _ => some 1, fun _ _ => some skA2, []⟩

/-- Exactly-one-binding invariant for one key of an association list. -/
def UniqAt {α : Type} (m : List (String × α)) (n : String) : Prop :=
  m.countP (fun q => q.1 == n) = if (m.lookup n).isSome then 1 else 0

/-- Sample skill whose only script lives in the nested scripts subfolder. -/
def skNested : SkillDefinition :=
  ⟨"deploy", "doc", "content", "/skills/deploy", ["scripts/deploy.sh"]⟩

/-- Registry state caching `skNested`. -/
def stNested : ProviderState := ⟨[("deploy", skNested)], [("deploy", 1)]⟩

/-! Skill discovery module: `collectScripts` and `discoverSkills`, with
directory listing, stat and file parsing as oracles. -/

/-- Directory entry as returned by `readdir(dir, { withFileTypes: true })`. -/
structure Dirent where
  name : String
  isFile : Bool
  isDir : Bool
deriving DecidableEq

/-- JavaScript `entry.name.slice(entry.name.lastIndexOf('.'))`: the
extension including its dot; when no dot is present, `lastIndexOf` returns
`-1` and `slice(-1)` yields the final character. -/
def extOf (name : String) : String :=
  match name.data.reverse.findIdx? (fun c => c = '.') with
  | some j => ⟨name.data.drop (name.data.length - 1 - j)⟩
  | none => ⟨name.data.drop (name.data.length - 1)⟩

/-- Membership test of the fixed `SCRIPT_EXTENSIONS` set. -/
def isScriptExt (ext : String) : Bool :=
  ext == ".mjs" || ext == ".js" || ext == ".sh" || ext == ".ts"

/-- Transliteration of `collectScripts`: the loop pushing the names of
regular files with an allowed extension; a failed `readdir` (`none`) yields
the empty list. -/
def collectScripts (entries : Option (List Dirent)) : List String :=
  match entries with
  | none => []
  | some es =>
    es.foldl (fun scripts e =>
      if e.isFile && isScriptExt (extOf e.name) then scripts ++ [e.name]
      else scripts) []

/-- Oracle for the filesystem as `discoverSkills` reads it: the root
directory listing, per-folder existence of a regular `SKILL.md`, the parse
of that file, and the two per-folder script listings (skill root and nested
`scripts` subfolder), each `none` when `readdir` throws. -/
structure DirFs where
  rootEntries : Option (List Dirent)
  hasSkillFile : String → Bool
  parsed : String → ParsedSkill
  dirEntries : String → Option (List Dirent)
  subEntries : String → Option (List Dirent)

/-- Loop body of `discoverSkills` for one root entry: apply the directory,
include/exclude and manifest filters, then assemble the skill record. -/
def discoverStep (fs : DirFs) (resolvedDir : String)
    (inc exc : Option (List String)) (skills : List SkillDefinition)
    (entry : Dirent) : List SkillDefinition :=
  if !entry.isDir then skills
  else if (match inc with
    | some l => decide (l.length > 0) && !l.contains entry.name
    | none => false) then skills
  else if (match exc with
    | some l => l.contains entry.name
    | none => false) then skills
  else if !fs.hasSkillFile entry.name then skills
  else
    let parsed := fs.parsed entry.name
    let topScripts := collectScripts (fs.dirEntries entry.name)
    let subScripts := collectScripts (fs.subEntries entry.name)
    let allScripts := topScripts ++ subScripts.map (fun s => "scripts/" ++ s)
    skills ++ [⟨if parsed.name = "" then entry.name else parsed.name,
      parsed.description, parsed.content,
      resolvedDir ++ "/" ++ entry.name, allScripts⟩]

/-- Transliteration of `discoverSkills` over the oracle: fold the loop body
over the root's entries (a failed root `readdir` yields no skills). -/
def discoverSkills (fs : DirFs) (resolvedDir : String)
    (inc exc : Option (List String)) : List SkillDefinition :=
  match fs.rootEntries with
  | none => []
  | some entries => entries.foldl (discoverStep fs resolvedDir inc exc) []

/-- Sample discovery filesystem for the C9 witness: one skill folder with a
script, a non-script file, and a nested scripts subfolder. -/
def fsWeather : DirFs :=
  ⟨some [⟨"weather", false, true⟩],
   fun _ => true,
   fun _ => ⟨"weather", "doc", "content"⟩,
   fun _ => some [⟨"weather.mjs", true, false⟩, ⟨"notes.txt", true, false⟩,
     ⟨"scripts", false, true⟩],
   fun _ => some [⟨"helper.js", true, false⟩]⟩

theorem findFromF_mono (fuel₁ fuel₂ : Nat) (s pat : List Char) (i : Nat)
    (h₁ : s.length + 1 ≤ fuel₁ + i) (h₂ : s.length + 1 ≤ fuel₂ + i) :
    findFromF fuel₁ s pat i = findFromF fuel₂ s pat i := by
  induction fuel₁ generalizing fuel₂ i with
  | zero =>
    cases fuel₂ with
    | zero => rfl
    | succ g₂ =>
      simp only [findFromF]
      rw [if_pos]
      omega
  | succ g ih =>
    cases fuel₂ with
    | zero =>
      simp only [findFromF]
      rw [if_pos]
      omega
    | succ g₂ =>
      simp only [findFromF]
      split
      · rfl
      · split
        · rfl
        · exact ih g₂ (i + 1) (by omega) (by omega)

theorem findFrom_isSome_of_match (s pat : List Char) (i j : Nat)
    (hij : i ≤ j) (hfit : j + pat.length ≤ s.length)
    (hpre : pat.isPrefixOf (s.drop j) = true) :
    (findFrom s pat i).isSome = true := by
  unfold findFrom
  have hfuel : s.length + 1 ≤ (s.length + 1 - i) + i := by omega
  generalize hg : s.length + 1 - i = fuel at *
  clear hg
  induction fuel generalizing i with
  | zero => omega
  | succ g ih =>
    simp only [findFromF]
    split
    · omega
    · split
      · simp
      · rcases Nat.eq_or_lt_of_le hij with h | h
        · subst h
          simp_all
        · exact ih (i + 1) h (by omega)

theorem findFrom_eq_some (s pat : List Char) (i j : Nat)
    (h : findFrom s pat i = some j) :
    i ≤ j ∧ j + pat.length ≤ s.length ∧ pat <+: s.drop j ∧
      ∀ m, i ≤ m → m < j → ¬ pat <+: s.drop m := by
  unfold findFrom at h
  have hfuel : s.length + 1 ≤ (s.length + 1 - i) + i ∨ (s.length + 1 - i) = 0 := by omega
  generalize hg : s.length + 1 - i = fuel at *
  clear hg
  induction fuel generalizing i with
  | zero => simp [findFromF] at h
  | succ g ih =>
    simp only [findFromF] at h
    rcases hfuel with hfuel | hfuel
    · split at h
      · exact absurd h (by simp)
      · split at h
        · rename_i hpre
          rw [List.isPrefixOf_iff_prefix] at hpre
          cases h
          refine ⟨le_refl _, by omega, hpre, ?_⟩
          intro m h₁ h₂
          omega
        · rename_i hlen hpre
          rw [List.isPrefixOf_iff_prefix] at hpre
          obtain ⟨h₁, h₂, h₃, h₄⟩ := ih (i + 1) h (by omega)
          refine ⟨by omega, h₂, h₃, ?_⟩
          intro m hm₁ hm₂
          rcases Nat.eq_or_lt_of_le hm₁ with hm | hm
          · subst hm
            exact hpre
          · exact h₄ m hm hm₂
    · omega

/-- Bridge between the executable scan and the declarative infix relation:
`containsSub s pat = true` exactly when `pat`'s characters occur contiguously
inside `s`'s characters. -/
theorem containsSub_iff_occurs (s pat : String) :
    containsSub s pat = true ↔ pat.data <:+: s.data := by
  constructor
  · intro h
    unfold containsSub at h
    rw [Option.isSome_iff_exists] at h
    obtain ⟨j, hj⟩ := h
    obtain ⟨-, hfit, hpre, -⟩ := findFrom_eq_some _ _ _ _ hj
    obtain ⟨t, ht⟩ := hpre
    exact ⟨s.data.take j, t, by rw [List.append_assoc, ht, List.take_append_drop]⟩
  · intro h
    obtain ⟨u, t, hut⟩ := h
    unfold containsSub
    apply findFrom_isSome_of_match s.data pat.data 0 u.length (Nat.zero_le _)
    · rw [← hut]
      simp only [List.append_assoc, List.length_append]
      omega
    · rw [List.isPrefixOf_iff_prefix, ← hut, List.append_assoc, List.drop_left' rfl]
      exact ⟨t, rfl⟩

/-- Claim C1: any script name containing `..`, `/`, or `\`, any absolute
path, and any name that is empty after trimming is rejected by
`executeScript` with `ScriptNotAllowed` before any child process is spawned. -/
theorem executeScript_rejects_unsafe_names (p : PathMod) (fs : FsOracle)
    (skillDir script : String) (args : List String)
    (h : "..".data <:+: script.data ∨ "/".data <:+: script.data ∨
         "\\".data <:+: script.data ∨ p.isAbsolute script = true ∨
         jsTrim script = "") :
    executeScript p fs skillDir script args =
      .reject { success := false, stdout := "", stderr := "", exitCode := -1,
                error := some "ScriptNotAllowed" } := by
  have hsimple : isSimpleFilename p.isAbsolute script = false := by
    unfold isSimpleFilename
    rcases h with h | h | h | h | h
    · rw [← containsSub_iff_occurs] at h
      simp [h]
    · rw [← containsSub_iff_occurs] at h
      simp [h]
    · rw [← containsSub_iff_occurs] at h
      simp [h]
    · simp [h]
    · simp [h]
  unfold executeScript
  rw [hsimple]
  rfl

/-- Witness for C1 at the concrete input `script := "../etc/passwd"`. -/
theorem executeScript_rejects_unsafe_names_witness :
    executeScript ⟨fun _ => false, id, fun a b => a ++ "/" ++ b,
        fun a b c => a ++ "/" ++ b ++ "/" ++ c, "/", fun _ => ""⟩
      ⟨fun _ => false⟩ "/skills/discord" "../etc/passwd" [] =
      .reject { success := false, stdout := "", stderr := "", exitCode := -1,
                error := some "ScriptNotAllowed" } :=
  executeScript_rejects_unsafe_names _ _ _ _ _
    (Or.inl (by decide))

theorem utf8DecodeF_irrel (f₁ f₂ : Nat) (l : List Nat)
    (h₁ : l.length ≤ f₁) (h₂ : l.length ≤ f₂) :
    utf8DecodeF f₁ l = utf8DecodeF f₂ l := by
  induction f₁ generalizing f₂ l with
  | zero =>
    have hl : l = [] := List.eq_nil_of_length_eq_zero (Nat.le_zero.mp h₁)
    subst hl
    cases f₂ <;> rfl
  | succ g ih =>
    cases l with
    | nil => cases f₂ <;> rfl
    | cons b rest =>
      cases f₂ with
      | zero => simp at h₂
      | succ g₂ =>
        simp only [utf8DecodeF]
        repeat' split
        all_goals try rfl
        all_goals (congr 1; apply ih <;> (simp only [List.length_cons] at *; omega))

theorem utf8Decode_encNat_append (n : Nat)
    (hv : n < 0xD800 ∨ (0xDFFF < n ∧ n < 0x110000)) (u : List Nat) :
    utf8Decode (utf8EncodeNat n ++ u) = Char.ofNat n :: utf8Decode u := by
  have hlt : n < 0x110000 := by omega
  unfold utf8EncodeNat
  rcases Nat.lt_or_ge n 0x80 with h1 | h1
  · rw [if_pos h1]
    show utf8DecodeF (u.length + 1) (n :: u) = _
    simp only [utf8DecodeF]; rw [if_pos h1]
    rfl
  · rw [if_neg (by omega)]
    rcases Nat.lt_or_ge n 0x800 with h2 | h2
    · rw [if_pos h2]
      show utf8DecodeF (u.length + 2) (_ :: _ :: u) = _
      have hc1 : isCont (0x80 + n % 64) = true := by
        simp only [isCont, decide_eq_true_eq]
        omega
      simp only [utf8DecodeF]; rw [if_neg (by omega), if_neg (by omega), if_pos (by omega)]
      simp only [hc1, if_true]
      have harith : (0xC0 + n / 64 - 0xC0) * 64 + (0x80 + n % 64 - 0x80) = n := by omega
      rw [harith, utf8DecodeF_irrel (u.length + 1) u.length u (by omega) (le_refl _)]
      rfl
    · rw [if_neg (by omega)]
      rcases Nat.lt_or_ge n 0x10000 with h3 | h3
      · rw [if_pos h3]
        show utf8DecodeF (u.length + 3) (_ :: _ :: _ :: u) = _
        have hc1 : cont3ok (0xE0 + n / 4096) (0x80 + n / 64 % 64) = true := by
          unfold cont3ok isCont
          rcases Nat.lt_or_ge n 0x1000 with hr | hr
          · rw [if_pos (by omega)]
            simp only [decide_eq_true_eq]
            omega
          · rcases Nat.lt_or_ge n 0xD000 with hr2 | hr2
            · rw [if_neg (by omega), if_neg (by omega)]
              simp only [decide_eq_true_eq]
              omega
            · rcases Nat.lt_or_ge n 0xE000 with hr3 | hr3
              · rw [if_neg (by omega), if_pos (by omega)]
                simp only [decide_eq_true_eq]
                omega
              · rw [if_neg (by omega), if_neg (by omega)]
                simp only [decide_eq_true_eq]
                omega
        have hc2 : isCont (0x80 + n % 64) = true := by
          simp only [isCont, decide_eq_true_eq]
          omega
        simp only [utf8DecodeF]; rw [if_neg (by omega), if_neg (by omega), if_neg (by omega),
          if_pos (by omega)]
        simp only [hc1, hc2, if_true]
        have harith : (0xE0 + n / 4096 - 0xE0) * 4096 + (0x80 + n / 64 % 64 - 0x80) * 64 +
            (0x80 + n % 64 - 0x80) = n := by omega
        rw [harith, utf8DecodeF_irrel (u.length + 2) u.length u (by omega) (le_refl _)]
        rfl
      · rw [if_neg (by omega)]
        show utf8DecodeF (u.length + 4) (_ :: _ :: _ :: _ :: u) = _
        have hc1 : cont4ok (0xF0 + n / 262144) (0x80 + n / 4096 % 64) = true := by
          unfold cont4ok isCont
          rcases Nat.lt_or_ge n 0x40000 with hr | hr
          · rw [if_pos (by omega)]
            simp only [decide_eq_true_eq]
            omega
          · rcases Nat.lt_or_ge n 0x100000 with hr2 | hr2
            · rw [if_neg (by omega), if_neg (by omega)]
              simp only [decide_eq_true_eq]
              omega
            · rw [if_neg (by omega), if_pos (by omega)]
              simp only [decide_eq_true_eq]
              omega
        have hc2 : isCont (0x80 + n / 64 % 64) = true := by
          simp only [isCont, decide_eq_true_eq]
          omega
        have hc3 : isCont (0x80 + n % 64) = true := by
          simp only [isCont, decide_eq_true_eq]
          omega
        simp only [utf8DecodeF]; rw [if_neg (by omega), if_neg (by omega), if_neg (by omega),
          if_neg (by omega), if_pos (by omega)]
        simp only [hc1, hc2, hc3, if_true]
        have harith : (0xF0 + n / 262144 - 0xF0) * 262144 + (0x80 + n / 4096 % 64 - 0x80) * 4096 +
            (0x80 + n / 64 % 64 - 0x80) * 64 + (0x80 + n % 64 - 0x80) = n := by omega
        rw [harith, utf8DecodeF_irrel (u.length + 3) u.length u (by omega) (le_refl _)]
        rfl

theorem utf8Decode_encChar_append (c : Char) (u : List Nat) :
    utf8Decode (utf8EncodeChar c ++ u) = c :: utf8Decode u := by
  have hv : c.toNat < 0xD800 ∨ (0xDFFF < c.toNat ∧ c.toNat < 0x110000) := c.valid
  rw [utf8EncodeChar, utf8Decode_encNat_append c.toNat hv u, Char.ofNat_toNat]

theorem utf8Decode_encNat_take (n : Nat)
    (hv : n < 0xD800 ∨ (0xDFFF < n ∧ n < 0x110000)) (k : Nat)
    (hk1 : 1 ≤ k) (hk2 : k < (utf8EncodeNat n).length) :
    utf8Decode ((utf8EncodeNat n).take k) = [replChar] := by
  unfold utf8EncodeNat at *
  rcases Nat.lt_or_ge n 0x80 with h1 | h1
  · rw [if_pos h1] at hk2
    simp at hk2
    omega
  · rw [if_neg (by omega)] at hk2 ⊢
    rcases Nat.lt_or_ge n 0x800 with h2 | h2
    · rw [if_pos h2] at hk2 ⊢
      simp only [List.length_cons, List.length_nil] at hk2
      have hk : k = 1 := by omega
      subst hk
      show utf8Decode [0xC0 + n / 64] = [replChar]
      show utf8DecodeF 1 _ = _
      simp only [utf8DecodeF]; rw [if_neg (by omega), if_neg (by omega), if_pos (by omega)]
    · rw [if_neg (by omega)] at hk2 ⊢
      rcases Nat.lt_or_ge n 0x10000 with h3 | h3
      · rw [if_pos h3] at hk2 ⊢
        simp only [List.length_cons, List.length_nil] at hk2
        have hc1 : cont3ok (0xE0 + n / 4096) (0x80 + n / 64 % 64) = true := by
          unfold cont3ok isCont
          rcases Nat.lt_or_ge n 0x1000 with hr | hr
          · rw [if_pos (by omega)]
            simp only [decide_eq_true_eq]
            omega
          · rcases Nat.lt_or_ge n 0xD000 with hr2 | hr2
            · rw [if_neg (by omega), if_neg (by omega)]
              simp only [decide_eq_true_eq]
              omega
            · rcases Nat.lt_or_ge n 0xE000 with hr3 | hr3
              · rw [if_neg (by omega), if_pos (by omega)]
                simp only [decide_eq_true_eq]
                omega
              · rw [if_neg (by omega), if_neg (by omega)]
                simp only [decide_eq_true_eq]
                omega
        match k, hk1, hk2 with
        | 1, _, _ =>
          simp only [List.take_succ_cons, List.take_zero]
          show utf8DecodeF 1 _ = _
          simp only [utf8DecodeF]; rw [if_neg (by omega), if_neg (by omega), if_neg (by omega),
            if_pos (by omega)]
        | 2, _, _ =>
          simp only [List.take_succ_cons, List.take_zero]
          show utf8DecodeF 2 _ = _
          simp only [utf8DecodeF]; rw [if_neg (by omega), if_neg (by omega), if_neg (by omega),
            if_pos (by omega), if_pos hc1]
      · rw [if_neg (by omega)] at hk2 ⊢
        simp only [List.length_cons, List.length_nil] at hk2
        have hc1 : cont4ok (0xF0 + n / 262144) (0x80 + n / 4096 % 64) = true := by
          unfold cont4ok isCont
          rcases Nat.lt_or_ge n 0x40000 with hr | hr
          · rw [if_pos (by omega)]
            simp only [decide_eq_true_eq]
            omega
          · rcases Nat.lt_or_ge n 0x100000 with hr2 | hr2
            · rw [if_neg (by omega), if_neg (by omega)]
              simp only [decide_eq_true_eq]
              omega
            · rw [if_neg (by omega), if_pos (by omega)]
              simp only [decide_eq_true_eq]
              omega
        have hc2 : isCont (0x80 + n / 64 % 64) = true := by
          simp only [isCont, decide_eq_true_eq]
          omega
        match k, hk1, hk2 with
        | 1, _, _ =>
          simp only [List.take_succ_cons, List.take_zero]
          show utf8DecodeF 1 _ = _
          simp only [utf8DecodeF]; rw [if_neg (by omega), if_neg (by omega), if_neg (by omega),
            if_neg (by omega), if_pos (by omega)]
        | 2, _, _ =>
          simp only [List.take_succ_cons, List.take_zero]
          show utf8DecodeF 2 _ = _
          simp only [utf8DecodeF]; rw [if_neg (by omega), if_neg (by omega), if_neg (by omega),
            if_neg (by omega), if_pos (by omega), if_pos hc1]
        | 3, _, _ =>
          simp only [List.take_succ_cons, List.take_zero]
          show utf8DecodeF 3 _ = _
          simp only [utf8DecodeF]; rw [if_neg (by omega), if_neg (by omega), if_neg (by omega),
            if_neg (by omega), if_pos (by omega), if_pos hc1, if_pos hc2]

theorem chLen_cons (c : Char) (l : List Char) :
    chLen (c :: l) = (utf8EncodeChar c).length + chLen l := by
  simp [chLen]

theorem chLen_decode_take (cs : List Char) (k : Nat) :
    chLen (utf8Decode (((cs.map utf8EncodeChar).flatten).take k)) ≤ k + 2 := by
  induction cs generalizing k with
  | nil => simp [utf8Decode, utf8DecodeF, chLen]
  | cons c cs ih =>
    simp only [List.map_cons, List.flatten_cons]
    rcases Nat.lt_or_ge k (utf8EncodeChar c).length with hk | hk
    · rw [List.take_append_eq_append_take, Nat.sub_eq_zero_of_le (le_of_lt hk),
        List.take_zero, List.append_nil]
      rcases Nat.eq_zero_or_pos k with h0 | h1
      · subst h0
        simp [utf8Decode, utf8DecodeF, chLen]
      · have hv : c.toNat < 0xD800 ∨ (0xDFFF < c.toNat ∧ c.toNat < 0x110000) := c.valid
        rw [utf8EncodeChar] at hk ⊢
        rw [utf8Decode_encNat_take c.toNat hv k h1 hk]
        have h3 : chLen [replChar] = 3 := by decide
        omega
    · rw [List.take_append_eq_append_take, List.take_of_length_le hk,
        utf8Decode_encChar_append, chLen_cons]
      have := ih (k - (utf8EncodeChar c).length)
      omega

theorem utf8Len_append (a b : String) : utf8Len (a ++ b) = utf8Len a + utf8Len b := by
  simp [utf8Len, utf8Bytes, String.data_append]

/-- Counterexample to claim C5 as stated: truncating `"é"` (2 UTF-8 bytes) at
`maxOutputBytes = 1` cuts the character in half, the dangling lead byte
decodes to U+FFFD (3 bytes), and the capped output occupies 22 bytes, which
exceeds `maxOutputBytes` plus the 19-byte marker. -/
theorem capOutput_cex :
    1 < utf8Len "é" ∧ utf8Len (capOutput "é" 1) = 22 ∧
      1 + utf8Len truncMarker < 22 := by decide

/-- Claim C5 amended: output whose UTF-8 encoding fits in `maxBytes` is
returned unchanged; longer output ends with the truncation marker and its
UTF-8 byte length is at most `maxBytes` plus the marker's length plus two
(the slack of two bytes arises when the cut lands inside a multi-byte
character and the dangling prefix decodes to U+FFFD). -/
theorem capOutput_spec (s : String) (k : Nat) :
    (utf8Len s ≤ k → capOutput s k = s) ∧
    (k < utf8Len s →
      (∃ pre, (capOutput s k).data = pre ++ truncMarker.data) ∧
      utf8Len (capOutput s k) ≤ k + 2 + utf8Len truncMarker) := by
  constructor
  · intro h
    unfold utf8Len at h
    unfold capOutput
    rw [if_pos h]
  · intro h
    unfold utf8Len at h
    have hcap : capOutput s k =
        String.mk (utf8Decode ((utf8Bytes s).take k)) ++ truncMarker := by
      unfold capOutput
      rw [if_neg (by omega)]
    constructor
    · exact ⟨(utf8Decode ((utf8Bytes s).take k)), by
        rw [hcap, String.data_append]⟩
    · rw [hcap, utf8Len_append]
      have hb : utf8Len (String.mk (utf8Decode ((utf8Bytes s).take k))) ≤ k + 2 := by
        show chLen _ ≤ k + 2
        exact chLen_decode_take s.data k
      omega

/-- Witness for C5 (amended) at concrete inputs: a short output is unchanged
and a long output is capped with the marker. -/
theorem capOutput_spec_witness :
    capOutput "ok" 5 = "ok" ∧
      (∃ pre, (capOutput "a long output" 4).data = pre ++ truncMarker.data) ∧
      utf8Len (capOutput "a long output" 4) ≤ 4 + 2 + utf8Len truncMarker :=
  ⟨(capOutput_spec "ok" 5).1 (by decide),
   ((capOutput_spec "a long output" 4).2 (by decide)).1,
   ((capOutput_spec "a long output" 4).2 (by decide)).2⟩

/-- Claim C6: when the child process is terminated because it did not exit
within `timeoutMs` (Node marks this by `error.killed`, or `code` equal to
`ETIMEDOUT`), the result is exactly the timeout record; stdout and stderr
collected before the termination are discarded. -/
theorem execCallback_timeout (childExitCode : Option Int) (e : ExecFileError)
    (stdout stderr : String) (maxOutput : Nat)
    (h : e.killed = true ∨ e.code = some "ETIMEDOUT") :
    execCallback childExitCode (some e) stdout stderr maxOutput =
      { success := false, stdout := "", stderr := "", exitCode := -1,
        error := some "ExecutionTimeout" } := by
  unfold execCallback
  rcases h with h | h
  · simp [h]
  · simp [h]

/-- Witness for C6: a timed-out child with collected output still maps to the
bare timeout record. -/
theorem execCallback_timeout_witness :
    execCallback (some 0) (some ⟨true, none, none⟩) "partial out" "partial err" 1024 =
      { success := false, stdout := "", stderr := "", exitCode := -1,
        error := some "ExecutionTimeout" } :=
  execCallback_timeout (some 0) ⟨true, none, none⟩ "partial out" "partial err" 1024
    (Or.inl rfl)

theorem lookup_mapSet {α : Type} (m : List (String × α)) (k k' : String) (v : α) :
    (mapSet m k v).lookup k' = if k' = k then some v else m.lookup k' := by
  induction m with
  | nil =>
    simp only [mapSet, List.lookup]
    by_cases hk : k' = k
    · rw [if_pos hk, show (k' == k) = true by simp [hk]]
    · rw [if_neg hk, show (k' == k) = false by simp [hk]]
  | cons p rest ih =>
    obtain ⟨k₀, v₀⟩ := p
    simp only [mapSet]
    by_cases h0 : k₀ = k
    · subst h0
      rw [if_pos rfl]
      simp only [List.lookup]
      by_cases hk : k' = k₀
      · rw [if_pos hk, show (k' == k₀) = true by simp [hk]]
      · rw [if_neg hk, show (k' == k₀) = false by simp [hk]]
    · rw [if_neg h0]
      simp only [List.lookup]
      by_cases hk : k' = k₀
      · rw [show (k' == k₀) = true by simp [hk],
          if_neg (show ¬ k' = k by rw [hk]; exact h0)]
      · rw [show (k' == k₀) = false by simp [hk], ih]

theorem lookup_mapDelete_ne {α : Type} (m : List (String × α)) (k k' : String)
    (h : k' ≠ k) : (mapDelete m k).lookup k' = m.lookup k' := by
  induction m with
  | nil => simp [mapDelete]
  | cons p rest ih =>
    obtain ⟨k₀, v₀⟩ := p
    simp only [mapDelete]
    by_cases h0 : k₀ = k
    · subst h0
      rw [if_pos rfl]
      simp only [List.lookup]
      rw [show (k' == k₀) = false by simp [h]]
    · rw [if_neg h0]
      simp only [List.lookup]
      by_cases hk : k' = k₀
      · rw [show (k' == k₀) = true by simp [hk]]
      · rw [show (k' == k₀) = false by simp [hk], ih]

/-- Uniqueness direction for the scan: a position that matches and below
which nothing matches is exactly what `findFrom` returns. -/
theorem findFrom_eq_some_of_least (s pat : List Char) (i j : Nat)
    (hij : i ≤ j) (hfit : j + pat.length ≤ s.length) (hpre : pat <+: s.drop j)
    (hmin : ∀ m, i ≤ m → m < j → ¬ pat <+: s.drop m) :
    findFrom s pat i = some j := by
  have hsome : (findFrom s pat i).isSome = true :=
    findFrom_isSome_of_match s pat i j hij hfit
      (List.isPrefixOf_iff_prefix.mpr hpre)
  rw [Option.isSome_iff_exists] at hsome
  obtain ⟨j', hj'⟩ := hsome
  obtain ⟨hij', hfit', hpre', hmin'⟩ := findFrom_eq_some s pat i j' hj'
  have h1 : ¬ j' < j := fun hlt => hmin j' hij' hlt hpre'
  have h2 : ¬ j < j' := fun hlt => hmin' j hij hlt hpre
  have : j' = j := by omega
  rw [hj', this]

/-- Counterexample to claim C7 as stated: in this input the line after the
frontmatter is `---x`, so no later line consists of only the delimiter, yet
the parser accepts `---x` as the closing line (it searches for the substring
`"\n---"`): the content is not the entire input and the frontmatter is not
empty (the description is parsed out of it). -/
theorem parseSkillFile_frontmatter_cex :
    strStarts "---\ndescription: hi\n---x\nrest" "---" = true ∧
    (listSplit '\n' ("---\ndescription: hi\n---x\nrest").data).tail.all
        (fun l => decide (l ≠ "---".data)) = true ∧
    (parseSkillFileCore "---\ndescription: hi\n---x\nrest").content = "x\nrest" ∧
    (parseSkillFileCore "---\ndescription: hi\n---x\nrest").content ≠
        "---\ndescription: hi\n---x\nrest" ∧
    (parseSkillFileCore "---\ndescription: hi\n---x\nrest").description = "hi" := by
  decide

/-- Claim C7 amended: when the input starts with `---`, the parser searches
for the next occurrence of a line break followed by `---` (a line merely
beginning with the delimiter, not necessarily consisting only of it); at the
first such occurrence `i` the frontmatter block is the region between offset
3 and `i` and the content is everything past the four matched characters,
with at most one leading line break stripped (extra characters on the
closing line therefore stay in the content); when no such occurrence exists
the whole input is the content and the frontmatter is empty. -/
theorem parseSkillFile_frontmatter_spec (raw : String) :
    (∀ i, strStarts raw "---" = true →
      3 ≤ i → i + 4 ≤ raw.data.length → "\n---".data <+: raw.data.drop i →
      (∀ m, m < i → 3 ≤ m → ¬ "\n---".data <+: raw.data.drop m) →
      (parseSkillFileCore raw).content =
          String.mk (stripLeadingNl (raw.data.drop (i + 4))) ∧
      (parseSkillFileCore raw).name =
          ((parseFrontmatter
              (String.mk ((raw.data.drop 3).take (i - 3)))).lookup "name").getD "") ∧
    (strStarts raw "---" = true →
      (∀ m, m < raw.data.length → 3 ≤ m → m + 4 ≤ raw.data.length →
          ¬ "\n---".data <+: raw.data.drop m) →
      parseSkillFileCore raw = ⟨"", firstParagraph raw, raw⟩) := by
  have h4 : ("\n---".data).length = 4 := rfl
  constructor
  · intro i hstart h3 hfit hpre hmin
    have hfind : findFrom raw.data "\n---".data 3 = some i := by
      apply findFrom_eq_some_of_least raw.data "\n---".data 3 i h3
      · rw [h4]
        exact hfit
      · exact hpre
      · intro m hm3 hmi
        exact hmin m hmi hm3
    simp only [parseSkillFileCore]
    rw [show "---".data.isPrefixOf raw.data = true from hstart, if_pos rfl, hfind]
    exact ⟨rfl, rfl⟩
  · intro hstart hnone
    have hfind : findFrom raw.data "\n---".data 3 = none := by
      cases hf : findFrom raw.data "\n---".data 3 with
      | none => rfl
      | some j =>
        obtain ⟨hij, hfit, hpre, -⟩ := findFrom_eq_some _ _ _ _ hf
        rw [h4] at hfit
        exact absurd hpre (hnone j (by omega) hij hfit)
    simp only [parseSkillFileCore]
    rw [show "---".data.isPrefixOf raw.data = true from hstart, if_pos rfl, hfind]

/-- Witness for C7 (amended) at concrete inputs: a well-formed frontmatter
file is cut at the closing delimiter line, and a file without a closing
delimiter keeps its entire text as content. -/
theorem parseSkillFile_frontmatter_spec_witness :
    ((parseSkillFileCore "---\nname: x\n---\nBody").content =
        String.mk (stripLeadingNl (("---\nname: x\n---\nBody").data.drop (11 + 4))) ∧
      (parseSkillFileCore "---\nname: x\n---\nBody").name =
        ((parseFrontmatter
            (String.mk ((("---\nname: x\n---\nBody").data.drop 3).take (11 - 3)))).lookup
            "name").getD "") ∧
    parseSkillFileCore "---\nno closing here" = ⟨"", firstParagraph "---\nno closing here", "---\nno closing here"⟩ :=
  ⟨(parseSkillFile_frontmatter_spec "---\nname: x\n---\nBody").1 11 (by decide) (by decide)
      (by decide) (by decide) (by decide),
   (parseSkillFile_frontmatter_spec "---\nno closing here").2 (by decide) (by decide)⟩

theorem lookup_addSkills (disk : Disk) (st : ProviderState)
    (l : List SkillDefinition) (n : String) :
    (addSkills disk st l).skillsMap.lookup n =
      match st.skillsMap.lookup n with
      | some v => some v
      | none => l.find? (fun s => s.name == n) := by
  induction l generalizing st with
  | nil => cases h : st.skillsMap.lookup n <;> simp [addSkills, h]
  | cons skill rest ih =>
    simp only [addSkills]
    cases hp : st.skillsMap.lookup skill.name with
    | some v0 =>
      rw [if_pos (show (some v0).isSome = true from rfl), ih st]
      by_cases hn : n = skill.name
      · subst hn
        rw [hp]
      · cases h : st.skillsMap.lookup n
        · simp [List.find?, show (skill.name == n) = false by simp [Ne.symm hn]]
        · rfl
    | none =>
      rw [if_neg (show ¬(none : Option SkillDefinition).isSome = true by simp), ih]
      show (match (mapSet st.skillsMap skill.name skill).lookup n with
        | some v => some v
        | none => rest.find? (fun s => s.name == n)) = _
      rw [lookup_mapSet]
      by_cases hn : n = skill.name
      · rw [if_pos hn, hn, hp]
        simp [List.find?]
      · rw [if_neg hn]
        cases h : st.skillsMap.lookup n
        · simp [List.find?, show (skill.name == n) = false by simp [Ne.symm hn]]
        · rfl

theorem addSkills_isSome (disk : Disk) (st : ProviderState)
    (l : List SkillDefinition) (n : String)
    (h : (st.skillsMap.lookup n).isSome = true) :
    ((addSkills disk st l).skillsMap.lookup n).isSome = true := by
  rw [lookup_addSkills]
  obtain ⟨v, hv⟩ := Option.isSome_iff_exists.mp h
  rw [hv]
  rfl

theorem refreshIfStale_lookup_self (disk : Disk) (st : ProviderState)
    (n : String) (skill : SkillDefinition)
    (h : st.skillsMap.lookup n = some skill) :
    (refreshIfStale disk st n).skillsMap.lookup n = some skill ∨
      ∃ upd, disk.loadSkill skill.dirPath n = some upd ∧
        (refreshIfStale disk st n).skillsMap.lookup n = some upd := by
  simp only [refreshIfStale, h]
  cases hstat : disk.statMtime skill.dirPath with
  | none =>
    dsimp only
    exact Or.inl h
  | some m =>
    dsimp only
    by_cases hc : st.mtimes.lookup n = some m
    · rw [if_pos hc]
      exact Or.inl h
    · rw [if_neg hc]
      cases hload : disk.loadSkill skill.dirPath n with
      | none =>
        dsimp only
        exact Or.inl h
      | some upd =>
        dsimp only
        right
        refine ⟨upd, rfl, ?_⟩
        show (mapSet st.skillsMap n upd).lookup n = some upd
        rw [lookup_mapSet, if_pos rfl]

theorem refreshIfStale_isSome (disk : Disk) (st : ProviderState) (n n' : String)
    (h : (st.skillsMap.lookup n').isSome = true) :
    ((refreshIfStale disk st n).skillsMap.lookup n').isSome = true := by
  simp only [refreshIfStale]
  cases hsk : st.skillsMap.lookup n with
  | none => exact h
  | some skill =>
    dsimp only
    cases hstat : disk.statMtime skill.dirPath with
    | none =>
      dsimp only
      exact h
    | some m =>
      dsimp only
      by_cases hc : st.mtimes.lookup n = some m
      · rw [if_pos hc]
        exact h
      · rw [if_neg hc]
        cases hload : disk.loadSkill skill.dirPath n with
        | none =>
          dsimp only
          exact h
        | some upd =>
          dsimp only
          show ((mapSet st.skillsMap n upd).lookup n').isSome = true
          rw [lookup_mapSet]
          by_cases hn : n' = n
          · rw [if_pos hn]
            rfl
          · rw [if_neg hn]
            exact h

theorem runOp_isSome (c : OpCtx) (st : ProviderState) (op : Op) (n : String)
    (h : (st.skillsMap.lookup n).isSome = true) :
    ((runOp c st op).skillsMap.lookup n).isSome = true := by
  have hdel : ∀ s, ((⟨(refreshIfStale c.disk st s).skillsMap,
      mapDelete (refreshIfStale c.disk st s).mtimes s⟩ :
        ProviderState).skillsMap.lookup n).isSome = true :=
    fun s => refreshIfStale_isSome _ _ _ _ h
  cases op with
  | load s =>
    show (((loadSkillStep c.disk st s).1).skillsMap.lookup n).isSome = true
    simp only [loadSkillStep]
    cases hsk : st.skillsMap.lookup s with
    | some sk0 =>
      dsimp only
      cases h1 : (refreshIfStale c.disk st s).skillsMap.lookup s <;>
        · dsimp only
          exact refreshIfStale_isSome _ _ _ _ h
    | none =>
      dsimp only
      cases h1 : (rediscover c.disk st).skillsMap.lookup s <;>
        · dsimp only
          exact addSkills_isSome _ _ _ _ h
  | use s sc a =>
    show (((useSkillStep c.p c.fsx c.disk st s sc a).1).skillsMap.lookup n).isSome = true
    cases a with
    | other t => exact h
    | arr l =>
      simp only [useSkillStep]
      cases h1 : (refreshIfStale c.disk st s).skillsMap.lookup s with
      | none =>
        dsimp only
        exact refreshIfStale_isSome _ _ _ _ h
      | some skill =>
        dsimp only
        by_cases hc : skill.scripts.contains sc = true
        · rw [if_pos hc]
          dsimp only
          rw [if_pos hc]
          exact refreshIfStale_isSome _ _ _ _ h
        · rw [if_neg hc]
          dsimp only
          split
          · exact refreshIfStale_isSome c.disk _ s n (hdel s)
          · exact refreshIfStale_isSome c.disk _ s n (hdel s)
    | undef =>
      simp only [useSkillStep]
      cases h1 : (refreshIfStale c.disk st s).skillsMap.lookup s with
      | none =>
        dsimp only
        exact refreshIfStale_isSome _ _ _ _ h
      | some skill =>
        dsimp only
        by_cases hc : skill.scripts.contains sc = true
        · rw [if_pos hc]
          dsimp only
          rw [if_pos hc]
          exact refreshIfStale_isSome _ _ _ _ h
        · rw [if_neg hc]
          dsimp only
          split
          · exact refreshIfStale_isSome c.disk _ s n (hdel s)
          · exact refreshIfStale_isSome c.disk _ s n (hdel s)
    | null =>
      simp only [useSkillStep]
      cases h1 : (refreshIfStale c.disk st s).skillsMap.lookup s with
      | none =>
        dsimp only
        exact refreshIfStale_isSome _ _ _ _ h
      | some skill =>
        dsimp only
        by_cases hc : skill.scripts.contains sc = true
        · rw [if_pos hc]
          dsimp only
          rw [if_pos hc]
          exact refreshIfStale_isSome _ _ _ _ h
        · rw [if_neg hc]
          dsimp only
          split
          · exact refreshIfStale_isSome c.disk _ s n (hdel s)
          · exact refreshIfStale_isSome c.disk _ s n (hdel s)

/-- Claim C10: once a skill name is present in the registry map, it remains
present after every subsequent `load_skill`/`use_skill` operation, whatever
the disk looks like at each step (even with the skill deleted from disk): no
operation ever removes a cached entry. -/
theorem registry_entries_persistent (steps : List (OpCtx × Op)) (st : ProviderState)
    (n : String) (h : (st.skillsMap.lookup n).isSome = true) :
    ((runOps st steps).skillsMap.lookup n).isSome = true := by
  induction steps generalizing st with
  | nil => exact h
  | cons co rest ih => exact ih (runOp co.1 st co.2) (runOp_isSome co.1 st co.2 n h)

/-- Witness for C10: with the skill's directory gone from disk, a
`load_skill` and a `use_skill` still leave the entry present. -/
theorem registry_entries_persistent_witness :
    ((runOps stA
        [(sampleCtx, Op.load "a"), (sampleCtx, Op.use "a" "x.mjs" (.arr []))]
      ).skillsMap.lookup "a").isSome = true :=
  registry_entries_persistent
    [(sampleCtx, Op.load "a"), (sampleCtx, Op.use "a" "x.mjs" (.arr []))]
    stA "a" (by decide)

/-- Claim C8: a `use_skill` request whose `args` value is not an array (for
example a single combined command string) fails with `InvalidArgs`; the
registry state is unchanged and no script is executed. -/
theorem useSkill_invalid_args (p : PathMod) (fsx : FsOracle) (disk : Disk)
    (st : ProviderState) (skillName script t : String) :
    useSkillStep p fsx disk st skillName script (.other t) =
      (st, .reject (failRes "InvalidArgs"
        ("args must be an array of strings, got " ++ t))) := rfl

/-- Claim C3: for a cached skill, a changed manifest modification time makes
the next `load_skill` return the freshly parsed content; an identical
modification time returns the cached content without re-parsing (the state
is untouched); a failed stat keeps the cached entry as-is. -/
theorem loadSkill_cache_freshness (disk : Disk) (st : ProviderState)
    (name : String) (skill : SkillDefinition) (m : Nat)
    (hsk : st.skillsMap.lookup name = some skill)
    (hmt : st.mtimes.lookup name = some m) :
    (∀ m' upd, disk.statMtime skill.dirPath = some m' → m' ≠ m →
      disk.loadSkill skill.dirPath name = some upd →
      loadSkillStep disk st name =
        (⟨mapSet st.skillsMap name upd, mapSet st.mtimes name m'⟩,
         ⟨true, upd.content, "", 0, none⟩)) ∧
    (disk.statMtime skill.dirPath = some m →
      loadSkillStep disk st name = (st, ⟨true, skill.content, "", 0, none⟩)) ∧
    (disk.statMtime skill.dirPath = none →
      loadSkillStep disk st name = (st, ⟨true, skill.content, "", 0, none⟩)) := by
  refine ⟨?_, ?_, ?_⟩
  · intro m' upd hstat hne hload
    have href : refreshIfStale disk st name =
        ⟨mapSet st.skillsMap name upd, mapSet st.mtimes name m'⟩ := by
      simp only [refreshIfStale, hsk, hstat]
      rw [if_neg (fun hc => by
        rw [hmt] at hc
        exact hne (Option.some.inj hc).symm)]
      simp only [hload]
    simp only [loadSkillStep, hsk]
    rw [href]
    rw [show (mapSet st.skillsMap name upd).lookup name = some upd by
      rw [lookup_mapSet, if_pos rfl]]
  · intro hstat
    have href : refreshIfStale disk st name = st := by
      simp only [refreshIfStale, hsk, hstat]
      rw [if_pos hmt]
    simp only [loadSkillStep, hsk]
    rw [href, hsk]
  · intro hstat
    have href : refreshIfStale disk st name = st := by
      simp only [refreshIfStale, hsk, hstat]
    simp only [loadSkillStep, hsk]
    rw [href, hsk]

/-- Witness for C3: the three freshness scenarios at a concrete cached
skill (mtime moved from 1 to 2; mtime still 1; stat failing). -/
theorem loadSkill_cache_freshness_witness :
    loadSkillStep diskChanged stA "a" =
      (⟨mapSet stA.skillsMap "a" skA2, mapSet stA.mtimes "a" 2⟩,
        ⟨true, skA2.content, "", 0, none⟩) ∧
    loadSkillStep diskSame stA "a" = (stA, ⟨true, skA.content, "", 0, none⟩) ∧
    loadSkillStep emptyDisk stA "a" = (stA, ⟨true, skA.content, "", 0, none⟩) :=
  ⟨(loadSkill_cache_freshness diskChanged stA "a" skA 1 (by decide) (by decide)).1
      2 skA2 rfl (by decide) rfl,
   (loadSkill_cache_freshness diskSame stA "a" skA 1 (by decide) (by decide)).2.1 rfl,
   (loadSkill_cache_freshness emptyDisk stA "a" skA 1 (by decide) (by decide)).2.2 rfl⟩

theorem mapSet_eq_append {α : Type} (m : List (String × α)) (k : String) (v : α)
    (h : m.lookup k = none) : mapSet m k v = m ++ [(k, v)] := by
  induction m with
  | nil => rfl
  | cons p rest ih =>
    obtain ⟨k₀, v₀⟩ := p
    simp only [List.lookup] at h
    by_cases hk : k = k₀
    · rw [show (k == k₀) = true by simp [hk]] at h
      exact absurd h (by simp)
    · rw [show (k == k₀) = false by simp [hk]] at h
      simp only [mapSet, if_neg (Ne.symm hk), ih h, List.cons_append]

theorem lookup_none_countP {α : Type} (m : List (String × α)) (k : String)
    (h : m.lookup k = none) : m.countP (fun q => q.1 == k) = 0 := by
  induction m with
  | nil => rfl
  | cons p rest ih =>
    obtain ⟨k₀, v₀⟩ := p
    simp only [List.lookup] at h
    by_cases hk : k = k₀
    · rw [show (k == k₀) = true by simp [hk]] at h
      exact absurd h (by simp)
    · rw [show (k == k₀) = false by simp [hk]] at h
      rw [List.countP_cons]
      simp [show (k₀ == k) = false by simp [Ne.symm hk], ih h]

theorem lookup_append_some {α : Type} (m₁ m₂ : List (String × α)) (k : String)
    (v : α) (h : m₁.lookup k = some v) : (m₁ ++ m₂).lookup k = some v := by
  induction m₁ with
  | nil => simp [List.lookup] at h
  | cons p rest ih =>
    obtain ⟨k₀, v₀⟩ := p
    simp only [List.lookup] at h ⊢
    cases hk : (k == k₀) with
    | true => rw [hk] at h; exact h
    | false => rw [hk] at h; exact ih h

theorem lookup_append_none {α : Type} (m₁ m₂ : List (String × α)) (k : String)
    (h : m₁.lookup k = none) : (m₁ ++ m₂).lookup k = m₂.lookup k := by
  induction m₁ with
  | nil => rfl
  | cons p rest ih =>
    obtain ⟨k₀, v₀⟩ := p
    simp only [List.lookup] at h ⊢
    cases hk : (k == k₀) with
    | true => rw [hk] at h; exact absurd h (by simp)
    | false => rw [hk] at h; exact ih h

theorem uniqAt_insert {α : Type} (m : List (String × α)) (k n : String) (v : α)
    (habs : m.lookup k = none) (hu : UniqAt m n) : UniqAt (m ++ [(k, v)]) n := by
  unfold UniqAt at *
  rw [List.countP_append]
  by_cases hn : n = k
  · subst hn
    rw [lookup_append_none _ _ _ habs]
    rw [habs] at hu
    simp only [Option.isSome_none, Bool.false_eq_true, if_false] at hu
    rw [hu]
    simp [List.countP_cons, List.lookup]
  · rw [List.countP_cons]
    simp only [List.countP_nil, show (k == n) = false by simp [Ne.symm hn]]
    cases hl : m.lookup n with
    | some v0 =>
      rw [lookup_append_some _ _ _ _ hl]
      rw [hl] at hu
      simpa using hu
    | none =>
      rw [lookup_append_none _ _ _ hl]
      rw [hl] at hu
      simp only [List.lookup, show (n == k) = false by simp [hn]]
      simpa using hu

theorem addSkills_uniqAt (disk : Disk) (st : ProviderState)
    (l : List SkillDefinition) (n : String) (hu : UniqAt st.skillsMap n) :
    UniqAt (addSkills disk st l).skillsMap n := by
  induction l generalizing st with
  | nil => exact hu
  | cons skill rest ih =>
    simp only [addSkills]
    cases hp : st.skillsMap.lookup skill.name with
    | some v0 =>
      rw [if_pos (show (some v0).isSome = true from rfl)]
      exact ih st hu
    | none =>
      rw [if_neg (show ¬(none : Option SkillDefinition).isSome = true by simp)]
      apply ih
      show UniqAt (mapSet st.skillsMap skill.name skill) n
      rw [mapSet_eq_append _ _ _ hp]
      exact uniqAt_insert _ _ _ _ hp hu

/-- Claim C4: with several roots configured and two of them yielding a skill
of the same name, the registry built over the roots in order has exactly one
entry for that name, and it is the skill discovered in the earlier root
(with its description, content and dirPath); later duplicates are
discarded. -/
theorem buildRegistry_first_root_wins (disk : Disk)
    (listA listB : List SkillDefinition) (n : String) (sA : SkillDefinition)
    (hA : listA.find? (fun s => s.name == n) = some sA)
    (_hB : ∃ sB ∈ listB, sB.name = n) :
    (buildRegistry disk [listA, listB]).skillsMap.lookup n = some sA ∧
    (buildRegistry disk [listA, listB]).skillsMap.countP (fun q => q.1 == n) = 1 := by
  have hlook : (buildRegistry disk [listA, listB]).skillsMap.lookup n = some sA := by
    unfold buildRegistry
    rw [lookup_addSkills]
    show (match (List.lookup n ([] : List (String × SkillDefinition))) with
      | some v => some v
      | none => ([listA, listB].flatten).find? (fun s => s.name == n)) = some sA
    show ([listA, listB].flatten).find? (fun s => s.name == n) = some sA
    rw [show ([listA, listB] : List (List SkillDefinition)).flatten =
      listA ++ listB by simp]
    rw [List.find?_append, hA]
    rfl
  refine ⟨hlook, ?_⟩
  have hu : UniqAt (buildRegistry disk [listA, listB]).skillsMap n := by
    apply addSkills_uniqAt
    show UniqAt ([] : List (String × SkillDefinition)) n
    unfold UniqAt
    rfl
  unfold UniqAt at hu
  rw [hlook] at hu
  simpa using hu

/-- Witness for C4: two roots both provide a skill named `discord` with
different descriptions; the earlier root's version is the single entry. -/
theorem buildRegistry_first_root_wins_witness :
    (buildRegistry emptyDisk
        [[⟨"discord", "descA", "contentA", "/rootA/discord", []⟩],
         [⟨"discord", "descB", "contentB", "/rootB/discord", []⟩]]).skillsMap.lookup
        "discord" = some ⟨"discord", "descA", "contentA", "/rootA/discord", []⟩ ∧
    (buildRegistry emptyDisk
        [[⟨"discord", "descA", "contentA", "/rootA/discord", []⟩],
         [⟨"discord", "descB", "contentB", "/rootB/discord", []⟩]]).skillsMap.countP
        (fun q => q.1 == "discord") = 1 :=
  buildRegistry_first_root_wins emptyDisk
    [⟨"discord", "descA", "contentA", "/rootA/discord", []⟩]
    [⟨"discord", "descB", "contentB", "/rootB/discord", []⟩]
    "discord" ⟨"discord", "descA", "contentA", "/rootA/discord", []⟩
    (by decide)
    ⟨⟨"discord", "descB", "contentB", "/rootB/discord", []⟩, by decide, rfl⟩

theorem containsSub_slash (f : String) : containsSub ("scripts/" ++ f) "/" = true := by
  rw [containsSub_iff_occurs]
  refine ⟨"scripts".data, f.data, ?_⟩
  rw [String.data_append]
  rw [show ("scripts/").data = "scripts".data ++ "/".data by decide]

theorem isSimpleFilename_false_of_slash (isAbs : String → Bool) (s : String)
    (h : containsSub s "/" = true) : isSimpleFilename isAbs s = false := by
  unfold isSimpleFilename
  split
  · rfl
  · rw [if_pos (show (containsSub s ".." || containsSub s "/" ||
      containsSub s "\\") = true by simp [h])]

theorem executeScript_slash_reject (p : PathMod) (fsx : FsOracle)
    (skillDir f : String) (args : List String) :
    executeScript p fsx skillDir ("scripts/" ++ f) args =
      .reject (failRes "ScriptNotAllowed") := by
  unfold executeScript
  rw [isSimpleFilename_false_of_slash p.isAbsolute _ (containsSub_slash f)]
  rfl

/-- Claim C2: a script that discovery recorded under the nested scripts
subfolder as `scripts/<file>` can never be executed through `use_skill`:
requesting `scripts/<file>` passes the registry's allowlist but the executor
rejects the name (it contains a slash) with `ScriptNotAllowed`, and
requesting the bare `<file>` is absent from the allowlist (also after the
forced re-parse) and is rejected with `ScriptNotAllowed` as well; in neither
case is a process spawned. -/
theorem nested_scripts_unrunnable (p : PathMod) (fsx : FsOracle) (disk : Disk)
    (st : ProviderState) (skillName f : String) (skill : SkillDefinition)
    (args : List String)
    (hsk : st.skillsMap.lookup skillName = some skill)
    (_hmem : skill.scripts.contains ("scripts/" ++ f) = true)
    (hbare : skill.scripts.contains f = false)
    (hreload : ∀ d s', disk.loadSkill d skillName = some s' →
      s'.scripts.contains f = false) :
    rejectsWith
      (useSkillStep p fsx disk st skillName ("scripts/" ++ f) (.arr args)).2
      "ScriptNotAllowed" = true ∧
    rejectsWith (useSkillStep p fsx disk st skillName f (.arr args)).2
      "ScriptNotAllowed" = true := by
  constructor
  · simp only [useSkillStep]
    have hpres := refreshIfStale_isSome disk st skillName skillName
      (by rw [hsk]; rfl)
    obtain ⟨skill₁, h1⟩ := Option.isSome_iff_exists.mp hpres
    rw [h1]
    dsimp only
    by_cases hc : skill₁.scripts.contains ("scripts/" ++ f) = true
    · rw [if_pos hc]
      dsimp only
      rw [if_pos hc, executeScript_slash_reject]
      rfl
    · rw [if_neg hc]
      dsimp only
      split
      · rw [executeScript_slash_reject]
        rfl
      · rfl
  · simp only [useSkillStep]
    have hboth : ∃ skill₁, (refreshIfStale disk st skillName).skillsMap.lookup
        skillName = some skill₁ ∧ skill₁.scripts.contains f = false := by
      rcases refreshIfStale_lookup_self disk st skillName skill hsk with
        h1 | ⟨upd, hupd, h1⟩
      · exact ⟨skill, h1, hbare⟩
      · exact ⟨upd, h1, hreload _ _ hupd⟩
    obtain ⟨skill₁, h1, hcon⟩ := hboth
    rw [h1]
    dsimp only
    rw [hcon]
    simp only [Bool.false_eq_true, if_false]
    have h2cases := refreshIfStale_lookup_self disk
      ⟨(refreshIfStale disk st skillName).skillsMap,
        mapDelete (refreshIfStale disk st skillName).mtimes skillName⟩
      skillName skill₁ h1
    rcases h2cases with h2 | ⟨upd2, hupd2, h2⟩
    · rw [h2]
      simp only [Option.getD_some, hcon, Bool.false_eq_true, if_false]
      rfl
    · rw [h2]
      simp only [Option.getD_some, hreload _ _ hupd2, Bool.false_eq_true, if_false]
      rfl

/-- Witness for C2: both the prefixed and the bare request for the nested
script are rejected with `ScriptNotAllowed`. -/
theorem nested_scripts_unrunnable_witness :
    rejectsWith
      (useSkillStep naivePath noFs emptyDisk stNested "deploy"
        ("scripts/" ++ "deploy.sh") (.arr [])).2 "ScriptNotAllowed" = true ∧
    rejectsWith
      (useSkillStep naivePath noFs emptyDisk stNested "deploy" "deploy.sh"
        (.arr [])).2 "ScriptNotAllowed" = true :=
  nested_scripts_unrunnable naivePath noFs emptyDisk stNested "deploy"
    "deploy.sh" skNested [] (by decide) (by decide) (by decide)
    (fun _ _ h => nomatch h)

theorem collectScripts_eq (o : Option (List Dirent)) :
    collectScripts o =
      ((o.getD []).filter (fun e => e.isFile && isScriptExt (extOf e.name))).map
        (fun e => e.name) := by
  cases o with
  | none => rfl
  | some es =>
    show es.foldl _ [] = _
    have hgen : ∀ acc, es.foldl (fun scripts e =>
        if e.isFile && isScriptExt (extOf e.name) then scripts ++ [e.name]
        else scripts) acc =
        acc ++ (es.filter (fun e => e.isFile && isScriptExt (extOf e.name))).map
          (fun e => e.name) := by
      induction es with
      | nil => intro acc; simp
      | cons e rest ih =>
        intro acc
        simp only [List.foldl_cons]
        by_cases hc : (e.isFile && isScriptExt (extOf e.name)) = true
        · rw [if_pos hc, ih]
          simp [List.filter_cons, hc]
        · rw [if_neg hc, ih]
          simp [List.filter_cons, hc]
    simpa using hgen []

theorem discoverStep_foldl_mem (fs : DirFs) (dir : String)
    (inc exc : Option (List String)) (es : List Dirent) :
    ∀ acc skill, skill ∈ es.foldl (discoverStep fs dir inc exc) acc →
      skill ∈ acc ∨ ∃ entry : Dirent,
        skill.dirPath = dir ++ "/" ++ entry.name ∧
        skill.scripts = collectScripts (fs.dirEntries entry.name) ++
          (collectScripts (fs.subEntries entry.name)).map
            (fun s => "scripts/" ++ s) := by
  induction es with
  | nil => intro acc skill h; exact Or.inl h
  | cons e rest ih =>
    intro acc skill h
    simp only [List.foldl_cons] at h
    rcases ih _ skill h with hacc | hex
    · unfold discoverStep at hacc
      split at hacc
      · exact Or.inl hacc
      · split at hacc
        · exact Or.inl hacc
        · split at hacc
          · exact Or.inl hacc
          · split at hacc
            · exact Or.inl hacc
            · rw [List.mem_append] at hacc
              rcases hacc with hacc | hone
              · exact Or.inl hacc
              · rw [List.mem_singleton] at hone
                subst hone
                exact Or.inr ⟨e, rfl, rfl⟩
    · exact Or.inr hex

/-- Claim C9: every discovered skill's scripts list consists of exactly the
regular files directly in the skill folder whose extension is allowed,
followed by the regular files of the nested scripts subfolder with an
allowed extension, each prefixed with `scripts/`, in that order. -/
theorem discovered_scripts_shape (fs : DirFs) (dir : String)
    (inc exc : Option (List String)) (skill : SkillDefinition)
    (h : skill ∈ discoverSkills fs dir inc exc) :
    ∃ folder : String,
      skill.dirPath = dir ++ "/" ++ folder ∧
      skill.scripts =
        (((fs.dirEntries folder).getD []).filter
            (fun e => e.isFile && isScriptExt (extOf e.name))).map
          (fun e => e.name) ++
        ((((fs.subEntries folder).getD []).filter
            (fun e => e.isFile && isScriptExt (extOf e.name))).map
          (fun e => e.name)).map (fun s => "scripts/" ++ s) := by
  unfold discoverSkills at h
  cases hroot : fs.rootEntries with
  | none =>
    rw [hroot] at h
    exact absurd h (List.not_mem_nil skill)
  | some es =>
    rw [hroot] at h
    rcases discoverStep_foldl_mem fs dir inc exc es [] skill h with hacc | ⟨entry, h1, h2⟩
    · exact absurd hacc (List.not_mem_nil skill)
    · exact ⟨entry.name, h1, by rw [h2, collectScripts_eq, collectScripts_eq]⟩

/-- Witness for C9 at a concrete discovery run: the discovered skill lists
`weather.mjs` then `scripts/helper.js`. -/
theorem discovered_scripts_shape_witness :
    ∃ folder : String,
      (⟨"weather", "doc", "content", "/root" ++ "/" ++ "weather",
        ["weather.mjs", "scripts/helper.js"]⟩ : SkillDefinition).dirPath =
          "/root" ++ "/" ++ folder ∧
      (⟨"weather", "doc", "content", "/root" ++ "/" ++ "weather",
        ["weather.mjs", "scripts/helper.js"]⟩ : SkillDefinition).scripts =
        (((fsWeather.dirEntries folder).getD []).filter
            (fun e => e.isFile && isScriptExt (extOf e.name))).map
          (fun e => e.name) ++
        ((((fsWeather.subEntries folder).getD []).filter
            (fun e => e.isFile && isScriptExt (extOf e.name))).map
          (fun e => e.name)).map (fun s => "scripts/" ++ s) :=
  discovered_scripts_shape fsWeather "/root" none none
    ⟨"weather", "doc", "content", "/root" ++ "/" ++ "weather",
      ["weather.mjs", "scripts/helper.js"]⟩ (by decide)

end ORSkills
